import Mathlib

/-!
Verification of the WHS_tool LLM-artifact extraction engine (`extract_llm.py`).

The Python source is shallowly embedded below: pure helpers become Lean
functions over `List Char` / `String`, the provider filesystem becomes the
inductive `FSNode` (with explicit error results standing for raised
provider exceptions), and the walker / extractor thread an explicit
`ExtractState` record instead of the Python dictionaries.  All definitions
come first, followed by the theorems.
-/

namespace ExtractLLM

/-! ## Definitions -/

/-- Index of the first occurrence of `c` (`str.find`, with `none` for `-1`;
also decides `c in s`). -/
def charIndexOf (c : Char) : List Char → Option Nat
  | [] => none
  | x :: xs => if x == c then some 0 else (charIndexOf c xs).map (· + 1)

/-- One character of `path.replace('\\', '/')`. -/
def sepChar (c : Char) : Char := if c == '\\' then '/' else c

/-- The guarded `normalized.split(':', 1)[-1]` of `normalize_path`
(extract_llm.py lines 83-84): drop through the first `':'` when it precedes
the first `'/'` (or no `'/'` exists at all). -/
def stripDrive (l : List Char) : List Char :=
  match charIndexOf ':' l, charIndexOf '/' l with
  | some i, some j => if i < j then l.drop (i + 1) else l
  | some i, none => l.drop (i + 1)
  | none, _ => l

/-- The guard of line 83, as a Boolean. -/
def stripCond (l : List Char) : Bool :=
  match charIndexOf ':' l, charIndexOf '/' l with
  | some i, some j => decide (i < j)
  | some _, none => true
  | none, _ => false

/-- Character list of `normalize_path`: separators converted, drive prefix
stripped, upper-cased (`str.upper`, modelled per character by core
`Char.toUpper` on the ASCII alphabet of the templates), leading slashes
stripped (`lstrip('/')`). -/
def normalizeChars (l : List Char) : List Char :=
  ((stripDrive (l.map sepChar)).map Char.toUpper).dropWhile (· == '/')

/-- `normalize_path` (extract_llm.py lines 81-85). -/
def normalize_path (path : String) : String := String.mk (normalizeChars path.data)

/-- Python `str.split(sep)` for a one-character separator; never returns
`[]` (splitting the empty string gives `[""]`). -/
def splitOnChar (sep : Char) : List Char → List (List Char)
  | [] => [[]]
  | c :: cs =>
    let r := splitOnChar sep cs
    if c == sep then [] :: r
    else (c :: r.headD []) :: r.tail

/-- `normalize_path(full_path).split('/')` (extract_llm.py line 443). -/
def templateParts (p : String) : List String :=
  (splitOnChar '/' (normalize_path p).data).map String.mk

/-- Python `str.upper()` (ASCII model). -/
def upperStr (s : String) : String := String.mk (s.data.map Char.toUpper)

/-- Python `str.lower()` (ASCII model). -/
def lowerStr (s : String) : String := String.mk (s.data.map Char.toLower)

/-- One artifact rule's option dictionary: the keys of `artifact_info` that
`recursive_search_and_extract` / `extract_item` read. -/
structure ArtifactInfo where
  extract_from : Option String := none
  extract_files : Option (List String) := none
  llm_name_placeholder : Option String := none

/-- One entry of a category's rule list in `artifacts.json`: the `path`
template plus the option dictionary. -/
structure ArtifactRule where
  path : String
  info : ArtifactInfo := {}

/-- Abstract provider filesystem node (dfvfs file entry).  A `some` error
on a directory's children stands for `sub_file_entries` raising; a `some`
error on a file stands for `GetFileObject()`/`read` raising. -/
inductive FSNode where
  | file (name : String) (readErr : Option String)
  | dir (name : String) (childErr : Option String) (children : List FSNode)

def FSNode.name : FSNode → String
  | .file n _ => n
  | .dir n _ _ => n

def FSNode.isFile : FSNode → Bool
  | .file _ _ => true
  | .dir _ _ _ => false

def FSNode.isDirectory : FSNode → Bool
  | .file _ _ => false
  | .dir _ _ _ => true

/-- A byte-copying side effect of `extract_item`: either one file copied to
`output_dir/<target parts>`, or one output directory created. -/
inductive CopyAction where
  | copyFile (orig : String) (target : List String)
  | makeDir (target : List String)
deriving DecidableEq

/-- The mutable run state: one category's `collected_paths` list, the
per-rule `counter['count']`, and the copy actions performed. -/
structure ExtractState where
  ledger : List String
  counter : Nat
  actions : List CopyAction
deriving DecidableEq

def initState : ExtractState := { ledger := [], counter := 0, actions := [] }

/-- The recording idiom used at every ledger write site
(`if entry not in collected_paths[k]: collected_paths[k].append(entry)`). -/
def recordEntry (l : List String) (e : String) : List String :=
  if e ∈ l then l else l ++ [e]

/-- Failure diagnostics are the tag plus a message. -/
def failEntry (msg : String) : String := "[EXTRACTION_FAILED] " ++ msg

/-- `'/' + '/'.join(current_path_parts)` (extract_llm.py line 185). -/
def origPathOf (cp : List String) : String := "/" ++ String.intercalate "/" cp

/-- Python `needle in haystack` on character lists. -/
def containsSeq (pat : List Char) : List Char → Bool
  | [] => pat.isEmpty
  | c :: cs => pat.isPrefixOf (c :: cs) || containsSeq pat cs

/-- Python `str.replace(pat, repl)` (leftmost, non-overlapping), with
explicit fuel to keep the recursion structural. -/
def replaceSeqAux (pat repl : List Char) : Nat → List Char → List Char
  | _, [] => []
  | 0, l => l
  | fuel + 1, c :: cs =>
    if pat ≠ [] ∧ pat.isPrefixOf (c :: cs) then
      repl ++ replaceSeqAux pat repl fuel ((c :: cs).drop pat.length)
    else
      c :: replaceSeqAux pat repl fuel cs

def replaceSeq (pat repl l : List Char) : List Char := replaceSeqAux pat repl l.length l

/-- Python `s.split('/')[-1]`. -/
def lastComponent (l : List Char) : List Char := (splitOnChar '/' l).getLastD []

/-- `extract_root_name` (extract_llm.py lines 205-208):
`artifact_info.get("extract_from", "").upper().replace('\\','/').split('/')[-1]`,
with the heuristic-mode `{LLM_NAME}` placeholder substituted when present. -/
def extractRootNameOf (info : ArtifactInfo) : String :=
  let r := lastComponent (((info.extract_from.getD "").data.map Char.toUpper).map sepChar)
  let r := if containsSeq "{LLM_NAME}".data r then
      replaceSeq "{LLM_NAME}".data ((info.llm_name_placeholder.getD "").data.map Char.toUpper) r
    else r
  String.mk r

/-- Python `list.index` (first occurrence, `none` for raised `ValueError`);
applied to the reversed list it is `upper_path_parts[::-1].index(name)`. -/
def revIndexOf (name : String) : List String → Option Nat
  | [] => none
  | x :: xs => if x == name then some 0 else (revIndexOf name xs).map (· + 1)

/-- `relative_path_parts` (extract_llm.py lines 210-218): the path-so-far
suffix starting at the last occurrence of the anchor name, or the final
segment alone when the anchor is empty or absent from the path. -/
def relativePathParts (rootName : String) (parts : List String) : List String :=
  if rootName = "" then [parts.getLastD ""]
  else
    match revIndexOf rootName ((parts.map upperStr).reverse) with
    | some j => parts.drop (parts.length - 1 - j)
    | none => [parts.getLastD ""]

/-- Strip an explicit literal prefix off a character list. -/
def stripPre : List Char → List Char → Option (List Char)
  | [], cs => some cs
  | _ :: _, [] => none
  | p :: ps, c :: cs => if p == c then stripPre ps cs else none

/-- Semantics of a regex `.*k` continuation: `dotStar f cs` holds when some
(possibly empty) newline-free prefix of `cs` can be consumed by `.*` such
that `f` accepts the remainder. -/
def dotStar (f : List Char → Bool) : List Char → Bool
  | [] => f []
  | c :: cs => f (c :: cs) || (c != '\n' && dotStar f cs)

/-- `re.match` semantics of the compiled pattern
`'.*'.join(map(re.escape, part.split('*')))`: the literal pieces
interleaved with `.*`, anchored at the start of the name only. -/
def rePartsMatch : List (List Char) → List Char → Bool
  | [] => fun _ => true
  | p :: ps => fun cs =>
    match stripPre p cs with
    | none => false
    | some r =>
      match ps with
      | [] => true
      | _ :: _ => dotStar (rePartsMatch ps) r

/-- Modelled from the spec: the same compiled pattern required to match the
*entire* name (`re.fullmatch` semantics), as the specification describes;
used to compare the code's `re.match` behaviour against the spec's words. -/
def rePartsFull : List (List Char) → List Char → Bool
  | [] => fun cs => cs.isEmpty
  | p :: ps => fun cs =>
    match stripPre p cs with
    | none => false
    | some r =>
      match ps with
      | [] => r.isEmpty
      | _ :: _ => dotStar (rePartsFull ps) r

/-- `part.split('*')`, case-folded for `re.IGNORECASE` (ASCII model). -/
def compileParts (part : String) : List (List Char) :=
  (splitOnChar '*' part.data).map (List.map Char.toLower)

/-- Whether `re.compile(pattern_str, re.IGNORECASE).match(name)` succeeds
(extract_llm.py lines 157-161). -/
def globSegMatch (part name : String) : Bool :=
  rePartsMatch (compileParts part) (name.data.map Char.toLower)

/-- Modelled from the spec: full-string acceptance of the same pattern. -/
def globSegFullMatch (part name : String) : Bool :=
  rePartsFull (compileParts part) (name.data.map Char.toLower)

/-- The embedded-wildcard branch's `found_entries` (lines 156-161). -/
def wildcardFilter (part : String) (children : List FSNode) : List FSNode :=
  children.filter (fun c => globSegMatch part c.name)

/-- Provider lookup `GetSubFileEntryByName` — per the source's comment
(lines 163-166) the case-sensitive attempt, modelled as first name match in
enumeration order. -/
def getSubFileEntryByName (children : List FSNode) (n : String) : Option FSNode :=
  children.find? (fun c => c.name == n)

/-- The exact-segment branch's `found_entries` (lines 162-172):
`GetSubFileEntryByName` first, else the first case-insensitive match. -/
def exactSegmentMatch (children : List FSNode) (part : String) : List FSNode :=
  match getSubFileEntryByName children part with
  | some e => [e]
  | none =>
    match children.find? (fun c => lowerStr c.name == lowerStr part) with
    | some e => [e]
    | none => []

mutual

/-- `extract_item` (extract_llm.py lines 182-247). -/
def extractItem (od cat : String) (node : FSNode) (cp : List String)
    (info : ArtifactInfo) (st : ExtractState) : ExtractState :=
  let origPath := origPathOf cp
  let st1 : ExtractState := { st with ledger := recordEntry st.ledger origPath }
  if info.extract_files.isSome ∧ node.isDirectory then
    match node with
    | .file _ _ => st1
    | .dir _ childErr children =>
      let targets := (info.extract_files.getD []).map upperStr
      match childErr with
      | some e =>
        let msg := failEntry ("Failed to list items in directory '" ++ origPath ++ "': " ++ e)
        { st1 with ledger := recordEntry st1.ledger msg }
      | none => extractAllowed od cat children targets cp st1
  else
    let rootName := extractRootNameOf info
    let rel := relativePathParts rootName cp
    let targetParts := cat :: rel
    let targetStr := od ++ "/" ++ String.intercalate "/" targetParts
    match node with
    | .file _ readErr =>
      let st2 : ExtractState := { st1 with counter := st1.counter + 1 }
      match readErr with
      | none =>
        { st2 with actions := st2.actions ++ [CopyAction.copyFile origPath targetParts] }
      | some e =>
        let msg := failEntry ("Failed to write file '" ++ origPath ++ "' to '" ++ targetStr ++ "': " ++ e)
        { st2 with ledger := recordEntry st2.ledger msg }
    | .dir _ childErr children =>
      let acts := st1.actions ++ [CopyAction.makeDir targetParts]
      let st2 : ExtractState := { st1 with counter := st1.counter + 1, actions := acts }
      match childErr with
      | some e =>
        let msg := failEntry ("Failed to process subdirectory in '" ++ origPath ++ "': " ++ e)
        { st2 with ledger := recordEntry st2.ledger msg }
      | none => extractWalkChildren od cat children cp info st2
termination_by sizeOf node
decreasing_by all_goals (simp_wf; try omega)

/-- The allow-list loop of `extract_item` (lines 191-202): each child whose
upper-cased name is allow-listed is re-extracted with
`new_info = {"extract_from": sub_name}`. -/
def extractAllowed (od cat : String) (nodes : List FSNode) (targets : List String)
    (cp : List String) (st : ExtractState) : ExtractState :=
  match nodes with
  | [] => st
  | c :: rest =>
    let st1 := if targets.contains (upperStr c.name) then
        extractItem od cat c (cp ++ [c.name]) { extract_from := some c.name } st
      else st
    extractAllowed od cat rest targets cp st1
termination_by sizeOf nodes
decreasing_by all_goals (simp_wf; try omega)

/-- The directory-recursion loop of `extract_item` (lines 240-244): every
child except `.` and `..` is extracted with the unchanged rule info. -/
def extractWalkChildren (od cat : String) (nodes : List FSNode) (cp : List String)
    (info : ArtifactInfo) (st : ExtractState) : ExtractState :=
  match nodes with
  | [] => st
  | c :: rest =>
    let st1 := if c.name = "." ∨ c.name = ".." then st
      else extractItem od cat c (cp ++ [c.name]) info st
    extractWalkChildren od cat rest cp info st1
termination_by sizeOf nodes
decreasing_by all_goals (simp_wf; try omega)

end

mutual

/-- `recursive_search_and_extract` (extract_llm.py lines 137-179). -/
def recursiveSearch (od cat : String) (node : FSNode) (pathParts cp : List String)
    (info : ArtifactInfo) (st : ExtractState) : ExtractState :=
  match pathParts with
  | [] => extractItem od cat node cp info st
  | currentPart :: remaining =>
    match node with
    | .file _ _ => st
    | .dir _ childErr children =>
      match childErr with
      | some e =>
        let msg := failEntry ("Could not read directory '" ++ String.intercalate "/" cp ++ "': " ++ e)
        { st with ledger := recordEntry st.ledger msg }
      | none =>
        let found : List FSNode :=
          if currentPart = "*" then
            children.filter (fun c => !(c.name == "." || c.name == ".."))
          else if '*' ∈ currentPart.data then
            wildcardFilter currentPart children
          else
            exactSegmentMatch children currentPart
        searchFound od cat found remaining cp info st
termination_by sizeOf node
decreasing_by
  all_goals simp_wf
  have hpos : ∀ (l : List FSNode), 1 ≤ sizeOf l := by
    intro l
    cases l <;> simp <;> omega
  have hmem : ∀ (e : FSNode) (l : List FSNode), e ∈ l → 2 + sizeOf e ≤ sizeOf l := by
    intro e l h
    induction l with
    | nil => cases h
    | cons a l ih =>
      rcases List.mem_cons.mp h with rfl | h2
      · have := hpos l
        simp
        omega
      · have := ih h2
        simp
        omega
  have hfil : ∀ (p : FSNode → Bool) (l : List FSNode), sizeOf (l.filter p) ≤ sizeOf l := by
    intro p l
    induction l with
    | nil => simp
    | cons a l ih =>
      by_cases hp : p a <;> simp [List.filter_cons, hp] <;> omega
  have hex : ∀ (l : List FSNode) (part : String),
      sizeOf (exactSegmentMatch l part) ≤ sizeOf l := by
    intro l part
    unfold exactSegmentMatch getSubFileEntryByName
    rcases hf : l.find? (fun c => c.name == part) with _ | e
    · rcases hg : l.find? (fun c => lowerStr c.name == lowerStr part) with _ | e
      · simp only [hf, hg]
        simpa using hpos l
      · have := hmem e l (List.mem_of_find?_eq_some hg)
        simp only [hf, hg]
        simp
        omega
    · have := hmem e l (List.mem_of_find?_eq_some hf)
      simp only [hf]
      simp
      omega
  split
  · refine lt_of_le_of_lt (hfil _ _) ?_
    omega
  split
  · simp only [wildcardFilter]
    refine lt_of_le_of_lt (hfil _ _) ?_
    omega
  · refine lt_of_le_of_lt (hex _ _) ?_
    omega

/-- The `for found_entry in found_entries` recursion of
`recursive_search_and_extract` (lines 174-176 and 150-153). -/
def searchFound (od cat : String) (nodes : List FSNode) (remaining cp : List String)
    (info : ArtifactInfo) (st : ExtractState) : ExtractState :=
  match nodes with
  | [] => st
  | c :: rest =>
    searchFound od cat rest remaining cp info
      (recursiveSearch od cat c remaining (cp ++ [c.name]) info st)
termination_by sizeOf nodes
decreasing_by all_goals (simp_wf; try omega)

end

/-- One rule of `main`'s inner loop (extract_llm.py lines 437-449):
normalize the template, split it, walk from the root. -/
def runRule (od cat : String) (root : FSNode) (r : ArtifactRule)
    (st : ExtractState) : ExtractState :=
  recursiveSearch od cat root (templateParts r.path) [] r.info st

/-- A category's rule list, processed in order against one ledger. -/
def runRules (od cat : String) (root : FSNode) : List ArtifactRule → ExtractState → ExtractState
  | [], st => st
  | r :: rest, st => runRules od cat root rest (runRule od cat root r st)

/-- `p.startswith("[EXTRACTION_FAILED]")` (extract_llm.py lines 266-267). -/
def isFailEntry (s : String) : Bool := "[EXTRACTION_FAILED]".data.isPrefixOf s.data

/-- `sum(1 for p in paths if not p.startswith("[EXTRACTION_FAILED]"))`. -/
def succeededCount (paths : List String) : Nat :=
  (paths.filter (fun p => !(isFailEntry p))).length

/-- `sum(1 for p in paths if p.startswith("[EXTRACTION_FAILED]"))`. -/
def failedCount (paths : List String) : Nat :=
  (paths.filter (fun p => isFailEntry p)).length

/-- The copy actions of an extraction, independent of the incoming state. -/
def extractDelta (od cat : String) (node : FSNode) (cp : List String)
    (info : ArtifactInfo) : List CopyAction :=
  (extractItem od cat node cp info initState).actions

/-- Well-formedness of a ledger entry: a recorded original path (starts
with `'/'`) or a failure diagnostic (starts with the failure tag). -/
def GoodEntry (s : String) : Prop := s.data.head? = some '/' ∨ isFailEntry s = true

/-! ## Theorems -/

/-! ### Character-level facts about the `str.upper` model -/

/-- If `n` is below the surrogate range, `Char.ofNat n` really holds `n`. -/
theorem char_toNat_ofNat {n : Nat} (h : n < 55296) : (Char.ofNat n).toNat = n := by
  have hv : n.isValidChar := Or.inl h
  rw [Char.ofNat, dif_pos hv]
  simp [Char.ofNatAux, Char.toNat, UInt32.toNat]

theorem char_eq_of_toNat_eq {c d : Char} (h : c.toNat = d.toNat) : c = d := by
  rw [← Char.ofNat_toNat c, ← Char.ofNat_toNat d, h]

theorem toUpper_toNat (c : Char) :
    (Char.toUpper c).toNat =
      if c.toNat ≥ 97 ∧ c.toNat ≤ 122 then c.toNat - 32 else c.toNat := by
  simp only [Char.toUpper]
  by_cases h : c.toNat ≥ 97 ∧ c.toNat ≤ 122
  · rw [if_pos h, if_pos h]
    exact char_toNat_ofNat (by omega)
  · rw [if_neg h, if_neg h]

theorem toUpper_not_lower (c : Char) :
    ¬((Char.toUpper c).toNat ≥ 97 ∧ (Char.toUpper c).toNat ≤ 122) := by
  rw [toUpper_toNat]
  by_cases h : c.toNat ≥ 97 ∧ c.toNat ≤ 122
  · rw [if_pos h]; omega
  · rw [if_neg h]; omega

theorem toUpper_toUpper (c : Char) : Char.toUpper (Char.toUpper c) = Char.toUpper c := by
  have h := toUpper_not_lower c
  generalize Char.toUpper c = d at h ⊢
  simp only [Char.toUpper]
  rw [if_neg h]

theorem toUpper_ne_backslash {c : Char} (h : c ≠ '\\') : Char.toUpper c ≠ '\\' := by
  intro he
  have ht := toUpper_toNat c
  rw [he] at ht
  have h92 : ('\\' : Char).toNat = 92 := rfl
  split at ht
  · omega
  · exact h (char_eq_of_toNat_eq ht.symm)

theorem toUpper_eq_slash {c : Char} (h : Char.toUpper c = '/') : c = '/' := by
  have ht := toUpper_toNat c
  rw [h] at ht
  have h47 : ('/' : Char).toNat = 47 := rfl
  split at ht
  · omega
  · exact char_eq_of_toNat_eq ht.symm

/-! ### Normalizer facts (claims C7 and C8) -/

theorem stripDrive_eq_self {l : List Char} (h : stripCond l = false) : stripDrive l = l := by
  unfold stripCond at h
  unfold stripDrive
  split at h <;> simp_all

theorem sepChar_ne_backslash (c : Char) : sepChar c ≠ '\\' := by
  unfold sepChar
  split
  · decide
  · next h => exact fun he => h (by simp [he])

theorem sepChar_eq_self {c : Char} (h : c ≠ '\\') : sepChar c = c := by
  unfold sepChar
  rw [if_neg (by simpa using h)]

/-- Every character of a normalized template is a `toUpper` image of a
`sepChar` image. -/
theorem mem_normalizeChars {c : Char} {l : List Char} (h : c ∈ normalizeChars l) :
    ∃ b ∈ l, c = Char.toUpper (sepChar b) := by
  unfold normalizeChars at h
  have h1 : c ∈ (stripDrive (l.map sepChar)).map Char.toUpper :=
    (List.dropWhile_sublist _).subset h
  obtain ⟨a, ha, rfl⟩ := List.mem_map.mp h1
  have h2 : a ∈ l.map sepChar := by
    unfold stripDrive at ha
    split at ha
    · split at ha
      · exact (List.drop_sublist _ _).subset ha
      · exact ha
    · exact (List.drop_sublist _ _).subset ha
    · exact ha
  obtain ⟨b, hb, rfl⟩ := List.mem_map.mp h2
  exact ⟨b, hb, rfl⟩

theorem normalizeChars_no_backslash {c : Char} {l : List Char} (h : c ∈ normalizeChars l) :
    c ≠ '\\' := by
  obtain ⟨b, _, rfl⟩ := mem_normalizeChars h
  exact toUpper_ne_backslash (sepChar_ne_backslash b)

theorem dropWhile_idem (p : Char → Bool) (l : List Char) :
    (l.dropWhile p).dropWhile p = l.dropWhile p := by
  induction l with
  | nil => rfl
  | cons a l ih =>
    by_cases h : p a = true
    · simp [List.dropWhile_cons, h, ih]
    · simp [List.dropWhile_cons, h]

theorem map_eq_self_of_forall {l : List Char} {f : Char → Char} (h : ∀ c ∈ l, f c = c) :
    l.map f = l := by
  induction l with
  | nil => rfl
  | cons a l ih =>
    rw [List.map_cons, h a (by simp), ih (fun c hc => h c (by simp [hc]))]

theorem normalizeChars_idem {l : List Char} (h : stripCond (normalizeChars l) = false) :
    normalizeChars (normalizeChars l) = normalizeChars l := by
  have hns : ∀ c ∈ normalizeChars l, sepChar c = c :=
    fun c hc => sepChar_eq_self (normalizeChars_no_backslash hc)
  have hup : ∀ c ∈ normalizeChars l, Char.toUpper c = c := by
    intro c hc
    obtain ⟨b, _, rfl⟩ := mem_normalizeChars hc
    exact toUpper_toUpper _
  conv_lhs => rw [normalizeChars]
  rw [map_eq_self_of_forall hns, stripDrive_eq_self h, map_eq_self_of_forall hup]
  have hunf : normalizeChars l
      = ((stripDrive (l.map sepChar)).map Char.toUpper).dropWhile (· == '/') := rfl
  rw [hunf]
  exact dropWhile_idem _ _

theorem charIndexOf_append_of_not_mem {a : Char} {xs : List Char}
    (h : ∀ x ∈ xs, x ≠ a) (l : List Char) :
    charIndexOf a (xs ++ l) = (charIndexOf a l).map (· + xs.length) := by
  induction xs with
  | nil => cases h' : charIndexOf a l <;> simp [h']
  | cons x xs ih =>
    have hx : (x == a) = false := by
      simp only [beq_eq_false_iff_ne]
      exact h x (by simp)
    rw [List.cons_append]
    rw [show charIndexOf a (x :: (xs ++ l))
        = if x == a then some 0 else (charIndexOf a (xs ++ l)).map (· + 1) from rfl]
    rw [hx, if_neg (by simp), ih (fun y hy => h y (by simp [hy]))]
    cases h' : charIndexOf a l <;> simp [h', Nat.add_assoc]

theorem normalizeChars_strip {pre rest : List Char}
    (h : ∀ c ∈ pre, c ≠ ':' ∧ c ≠ '/' ∧ c ≠ '\\') :
    normalizeChars (pre ++ ':' :: rest) =
      ((rest.map sepChar).map Char.toUpper).dropWhile (· == '/') := by
  have hpre : pre.map sepChar = pre :=
    map_eq_self_of_forall (fun c hc => sepChar_eq_self (h c hc).2.2)
  have hmap : (pre ++ ':' :: rest).map sepChar = pre ++ ':' :: rest.map sepChar := by
    rw [List.map_append, hpre, List.map_cons]
    rfl
  have hcolon : charIndexOf ':' (pre ++ ':' :: rest.map sepChar) = some pre.length := by
    rw [charIndexOf_append_of_not_mem (fun x hx => (h x hx).1)]
    simp [charIndexOf]
  have hdrop : (pre ++ ':' :: rest.map sepChar).drop (pre.length + 1) = rest.map sepChar := by
    rw [List.append_cons]
    have hlen : (pre ++ [':']).length = pre.length + 1 := by simp
    rw [← hlen, List.drop_left]
  have hslash : charIndexOf '/' (pre ++ ':' :: rest.map sepChar)
      = (charIndexOf '/' (rest.map sepChar)).map (· + (pre.length + 1)) := by
    rw [charIndexOf_append_of_not_mem (fun x hx => (h x hx).2.1)]
    rw [show charIndexOf '/' (':' :: rest.map sepChar)
        = (charIndexOf '/' (rest.map sepChar)).map (· + 1) from rfl]
    cases h' : charIndexOf '/' (rest.map sepChar) <;> simp [h', Nat.add_assoc] <;> omega
  unfold normalizeChars
  rw [hmap]
  unfold stripDrive
  rw [hcolon, hslash]
  cases h' : charIndexOf '/' (rest.map sepChar) with
  | none => simp only [Option.map_none']; rw [hdrop]
  | some k =>
    simp only [Option.map_some']
    rw [if_pos (by omega), hdrop]

/-- **C7, counterexample.** `normalize_path` is not idempotent on every raw
template: for `"A:B:C/D"` one pass yields `"B:C/D"`, whose leftover `':'`
again precedes the first `'/'`, so a second pass strips again to `"C/D"`. -/
theorem normalize_path_not_idem_cex :
    normalize_path (normalize_path "A:B:C/D") ≠ normalize_path "A:B:C/D" := by decide

/-- **C7** (amended). Normalization is idempotent for every template whose
once-normalized form does not again satisfy the drive-strip guard (a `':'`
before the first `'/'`, or a `':'` with no `'/'` at all); and for every
template made of a colon-free, separator-free prefix followed by `':'`,
normalization strips exactly that prefix (the result is the
separator-converted, upper-cased, leading-slash-stripped remainder). -/
theorem normalize_path_idem_and_strip :
    (∀ s : String, stripCond (normalize_path s).data = false →
      normalize_path (normalize_path s) = normalize_path s)
    ∧ (∀ pre rest : List Char, (∀ c ∈ pre, c ≠ ':' ∧ c ≠ '/' ∧ c ≠ '\\') →
      normalizeChars (pre ++ ':' :: rest) =
        ((rest.map sepChar).map Char.toUpper).dropWhile (· == '/')) := by
  constructor
  · intro s h
    show String.mk (normalizeChars (normalizeChars s.data)) = String.mk (normalizeChars s.data)
    rw [normalizeChars_idem h]
  · intro pre rest h
    exact normalizeChars_strip h

/-- Witness for C7's amended theorem at the drive-letter template `C:\Users\Bob`. -/
theorem normalize_path_idem_and_strip_witness :
    normalize_path (normalize_path "C:\\Users\\Bob") = normalize_path "C:\\Users\\Bob"
    ∧ normalizeChars (['C'] ++ ':' :: "\\Users\\Bob".data) =
      (("\\Users\\Bob".data.map sepChar).map Char.toUpper).dropWhile (· == '/') :=
  ⟨normalize_path_idem_and_strip.1 "C:\\Users\\Bob" (by decide),
   normalize_path_idem_and_strip.2 ['C'] "\\Users\\Bob".data (by decide)⟩

theorem splitOnChar_ne_nil (sep : Char) (l : List Char) : splitOnChar sep l ≠ [] := by
  cases l with
  | nil => simp [splitOnChar]
  | cons c cs =>
    simp only [splitOnChar]
    split <;> simp

theorem splitOnChar_not_mem {sep : Char} {l : List Char} (h : sep ∉ l) :
    splitOnChar sep l = [l] := by
  induction l with
  | nil => rfl
  | cons c cs ih =>
    have hc : (c == sep) = false := by
      simp only [beq_eq_false_iff_ne]
      rintro rfl
      exact h (by simp)
    have hcs : sep ∉ cs := fun hm => h (by simp [hm])
    simp only [splitOnChar, ih hcs, hc]
    simp

theorem normalizeChars_no_slash_of {l : List Char} (h1 : '/' ∉ l) (h2 : '\\' ∉ l) :
    '/' ∉ normalizeChars l := by
  intro hm
  obtain ⟨b, hb, hc⟩ := mem_normalizeChars hm
  have hsep : sepChar b = b := sepChar_eq_self (fun he => h2 (he ▸ hb))
  rw [hsep] at hc
  exact h1 ((toUpper_eq_slash hc.symm) ▸ hb)

/-- **C8.** `main` (line 443) turns a template into segments with
`normalize_path(...).split('/')`, which can never yield zero segments
(`str.split` always returns at least one piece), so the only failure
condition the spec allows (`InvalidTemplate` on zero segments) is never
triggered; and a template containing no separator at all comes back as a
single-segment sequence. -/
theorem templateParts_never_empty :
    ∀ s : String, (templateParts s).length ≠ 0 ∧
      (('/' ∉ s.data ∧ '\\' ∉ s.data) → (templateParts s).length = 1) := by
  intro s
  constructor
  · unfold templateParts
    rw [List.length_map]
    intro hz
    exact splitOnChar_ne_nil _ _ (List.length_eq_zero.mp hz)
  · rintro ⟨h1, h2⟩
    unfold templateParts
    rw [show (normalize_path s).data = normalizeChars s.data from rfl,
        splitOnChar_not_mem (normalizeChars_no_slash_of h1 h2)]
    rfl

/-- Witness for C8 at the separator-free template `"CONFIG.JSON"`. -/
theorem templateParts_never_empty_witness :
    (templateParts "CONFIG.JSON").length ≠ 0 ∧ (templateParts "CONFIG.JSON").length = 1 :=
  ⟨(templateParts_never_empty "CONFIG.JSON").1,
   (templateParts_never_empty "CONFIG.JSON").2 (by decide)⟩

/-! ### Ledger recording (claim C4) -/

/-- **C4.** Every ledger write site uses the guarded append
`if entry not in collected_paths[k]: append(entry)`: re-recording a literal
entry already present in the category leaves the entry list — and hence its
length and every count computed from it — unchanged. -/
theorem recordEntry_idem :
    ∀ (l : List String) (e : String), e ∈ l →
      recordEntry l e = l ∧ (recordEntry l e).length = l.length := by
  intro l e h
  unfold recordEntry
  rw [if_pos h]
  exact ⟨rfl, rfl⟩

/-- Witness for C4: re-recording `"/A"` in a category already holding it. -/
theorem recordEntry_idem_witness :
    recordEntry ["/A", "/B"] "/A" = ["/A", "/B"]
    ∧ (recordEntry ["/A", "/B"] "/A").length = ["/A", "/B"].length :=
  recordEntry_idem ["/A", "/B"] "/A" (by decide)

/-! ### Anchor resolution (claim C2) -/

theorem revIndexOf_eq_none_iff {name : String} {l : List String} :
    revIndexOf name l = none ↔ name ∉ l := by
  induction l with
  | nil => simp [revIndexOf]
  | cons x xs ih =>
    by_cases h : x = name
    · subst h
      simp [revIndexOf]
    · have hb : (x == name) = false := by simpa using h
      simp only [revIndexOf, hb, Bool.false_eq_true, if_false, Option.map_eq_none', ih,
        List.mem_cons, not_or]
      constructor
      · intro hn
        exact ⟨fun he => h he.symm, hn⟩
      · intro hn
        exact hn.2

/-- `list.index` returns the first matching index. -/
theorem revIndexOf_spec {name : String} {l : List String} {j : Nat}
    (h : revIndexOf name l = some j) :
    j < l.length ∧ l.get? j = some name ∧ ∀ k, k < j → l.get? k ≠ some name := by
  induction l generalizing j with
  | nil => simp [revIndexOf] at h
  | cons x xs ih =>
    by_cases hx : x = name
    · subst hx
      simp [revIndexOf] at h
      subst h
      refine ⟨by simp, by simp, ?_⟩
      intro k hk
      omega
    · have hb : (x == name) = false := by simpa using hx
      simp only [revIndexOf, hb, Bool.false_eq_true, if_false, Option.map_eq_some'] at h
      obtain ⟨j', hj', rfl⟩ := h
      obtain ⟨h1, h2, h3⟩ := ih hj'
      refine ⟨by simpa using h1, by simpa using h2, ?_⟩
      intro k hk
      cases k with
      | zero =>
        simp only [List.get?_cons_zero]
        intro he
        exact hx (by injection he)
      | succ k' =>
        simp only [List.get?_cons_succ]
        exact h3 k' (by omega)

theorem relativePathParts_found {rootName : String} {parts : List String}
    (hne : parts ≠ []) (hroot : rootName ≠ "") (hmem : rootName ∈ parts.map upperStr) :
    ∃ i, i < parts.length ∧ (parts.map upperStr).get? i = some rootName ∧
      (∀ k, i < k → (parts.map upperStr).get? k ≠ some rootName) ∧
      relativePathParts rootName parts = parts.drop i := by
  have hlen : (parts.map upperStr).length = parts.length := List.length_map _ _
  have hmemrev : rootName ∈ (parts.map upperStr).reverse := List.mem_reverse.mpr hmem
  rcases hrev : revIndexOf rootName ((parts.map upperStr).reverse) with _ | j
  · exact absurd (revIndexOf_eq_none_iff.mp hrev) (by simpa using hmemrev)
  · obtain ⟨hj1, hj2, hj3⟩ := revIndexOf_spec hrev
    rw [List.length_reverse] at hj1
    have hplen : 0 < parts.length := List.length_pos.mpr hne
    refine ⟨parts.length - 1 - j, by omega, ?_, ?_, ?_⟩
    · rw [List.get?_reverse (by omega : j < (parts.map upperStr).length)] at hj2
      rw [hlen] at hj2
      exact hj2
    · intro k hk
      by_cases hklen : k < parts.length
      · have hkrev : (parts.map upperStr).get? k
            = (parts.map upperStr).reverse.get? (parts.length - 1 - k) := by
          rw [List.get?_reverse
            (show parts.length - 1 - k < (parts.map upperStr).length by omega)]
          rw [hlen]
          congr 1
          omega
        rw [hkrev]
        exact hj3 _ (by omega)
      · rw [List.get?_eq_none.mpr (by omega : (parts.map upperStr).length ≤ k)]
        simp
    · unfold relativePathParts
      rw [if_neg hroot, hrev]

theorem relativePathParts_not_found {rootName : String} {parts : List String}
    (hmem : rootName ∉ parts.map upperStr) :
    relativePathParts rootName parts = [parts.getLastD ""] := by
  unfold relativePathParts
  by_cases hroot : rootName = ""
  · rw [if_pos hroot]
  · rw [if_neg hroot,
      revIndexOf_eq_none_iff.mpr (fun hm => hmem (List.mem_reverse.mp hm))]

theorem drop_length_sub_one {parts : List String} (hne : parts ≠ []) :
    parts.drop (parts.length - 1) = [parts.getLastD ""] := by
  obtain ⟨init, a, rfl⟩ := List.eq_nil_or_concat parts |>.resolve_left hne
  rw [List.concat_eq_append, List.getLastD_concat]
  have hlen : (init ++ [a]).length - 1 = init.length := by simp
  rw [hlen, List.drop_left]

/-- **C2.** For a non-empty path-so-far: if the (non-empty) anchor name
occurs among the upper-cased path segments, the output-relative path is the
suffix starting at its last occurrence; if it occurs nowhere, it is the
final segment alone; the absent-anchor fallback (`extract_root_name` empty)
also yields the final segment alone, which coincides with the suffix at the
last occurrence of the terminal node's own (upper-cased) name; and on a
readable file this fallback records only the success path — no failure
entry. -/
theorem anchor_resolution :
    ∀ (parts : List String) (rootName : String), parts ≠ [] →
      ((rootName ≠ "" → rootName ∈ parts.map upperStr →
        ∃ i, i < parts.length ∧ (parts.map upperStr).get? i = some rootName ∧
          (∀ k, i < k → (parts.map upperStr).get? k ≠ some rootName) ∧
          relativePathParts rootName parts = parts.drop i)
      ∧ (rootName ∉ parts.map upperStr →
          relativePathParts rootName parts = [parts.getLastD ""])
      ∧ (relativePathParts "" parts = [parts.getLastD ""]
          ∧ (parts.map upperStr).get? (parts.length - 1) = some (upperStr (parts.getLastD ""))
          ∧ parts.drop (parts.length - 1) = [parts.getLastD ""])
      ∧ (∀ od cat n info st, extractRootNameOf info ∉ parts.map upperStr →
          extractItem od cat (FSNode.file n none) parts info st
            = ExtractState.mk (recordEntry st.ledger (origPathOf parts)) (st.counter + 1)
                (st.actions
                  ++ [CopyAction.copyFile (origPathOf parts) (cat :: [parts.getLastD ""])]))) := by
  intro parts rootName hne
  refine ⟨fun hroot hmem => relativePathParts_found hne hroot hmem,
    fun hmem => relativePathParts_not_found hmem, ⟨?_, ?_, drop_length_sub_one hne⟩, ?_⟩
  · unfold relativePathParts
    rw [if_pos rfl]
  · have h1 : parts.getLast? = parts.get? (parts.length - 1) := List.getLast?_eq_get? parts
    have h2 : (parts.map upperStr).get? (parts.length - 1)
        = (parts.get? (parts.length - 1)).map upperStr := by
      rw [List.get?_map]
    rcases hL : parts.getLast? with _ | a
    · exact absurd (List.getLast?_eq_none_iff.mp hL) hne
    · rw [h2, ← h1, hL]
      simp [List.getLastD_eq_getLast?, hL]
  · intro od cat n info st hmem
    have hrel : relativePathParts (extractRootNameOf info) parts = [parts.getLastD ""] :=
      relativePathParts_not_found hmem
    simp only [extractItem, FSNode.isDirectory, Bool.false_eq_true, and_false, if_false,
      hrel]

/-- Witness for C2 at the spec's example: path-so-far
`["Users","bob","AppData","Cache","Cache_Data","index"]` and anchor
`"CACHE_DATA"` resolve to the suffix at the last occurrence. -/
theorem anchor_resolution_witness :
    ∃ i, i < (["Users", "bob", "AppData", "Cache", "Cache_Data", "index"] : List String).length ∧
      ((["Users", "bob", "AppData", "Cache", "Cache_Data", "index"] : List String).map
        upperStr).get? i = some "CACHE_DATA" ∧
      (∀ k, i < k →
        ((["Users", "bob", "AppData", "Cache", "Cache_Data", "index"] : List String).map
          upperStr).get? k ≠ some "CACHE_DATA") ∧
      relativePathParts "CACHE_DATA" ["Users", "bob", "AppData", "Cache", "Cache_Data", "index"]
        = (["Users", "bob", "AppData", "Cache", "Cache_Data", "index"] : List String).drop i :=
  (anchor_resolution ["Users", "bob", "AppData", "Cache", "Cache_Data", "index"] "CACHE_DATA"
    (by decide)).1 (by decide) (by decide)

/-! ### Embedded-wildcard matching (claim C1) -/

theorem stripPre_eq_some_iff {p cs r : List Char} :
    stripPre p cs = some r ↔ cs = p ++ r := by
  induction p generalizing cs with
  | nil =>
    simp only [stripPre, List.nil_append, Option.some.injEq]
  | cons a p ih =>
    cases cs with
    | nil => simp [stripPre]
    | cons c cs' =>
      by_cases h : a = c
      · subst h
        simp [stripPre, ih]
      · have hb : (a == c) = false := by simpa using h
        simp only [stripPre, hb, Bool.false_eq_true, if_false]
        constructor
        · intro hn
          exact absurd hn (by simp)
        · intro hcc
          rw [List.cons_append] at hcc
          exact absurd (List.cons_eq_cons.mp hcc).1.symm h

theorem rePartsMatch_cons_none {p : List Char} {ps : List (List Char)} {cs : List Char}
    (h : stripPre p cs = none) : rePartsMatch (p :: ps) cs = false := by
  cases ps <;> simp [rePartsMatch, h]

theorem rePartsMatch_cons_some {p : List Char} {ps : List (List Char)} {cs r : List Char}
    (h : stripPre p cs = some r) :
    rePartsMatch (p :: ps) cs
      = match ps with
        | [] => true
        | _ :: _ => dotStar (rePartsMatch ps) r := by
  cases ps <;> simp [rePartsMatch, h]

theorem rePartsFull_cons_none {p : List Char} {ps : List (List Char)} {cs : List Char}
    (h : stripPre p cs = none) : rePartsFull (p :: ps) cs = false := by
  cases ps <;> simp [rePartsFull, h]

theorem rePartsFull_cons_some {p : List Char} {ps : List (List Char)} {cs r : List Char}
    (h : stripPre p cs = some r) :
    rePartsFull (p :: ps) cs
      = match ps with
        | [] => r.isEmpty
        | _ :: _ => dotStar (rePartsFull ps) r := by
  cases ps <;> simp [rePartsFull, h]

theorem dotStar_of_self {f : List Char → Bool} {cs : List Char} (h : f cs = true) :
    dotStar f cs = true := by
  cases cs <;> simp [dotStar, h]

/-- Splitting lemma for `.*` continuations: if `f` is the prefix-relaxation
of `g`, then `dotStar f` is the prefix-relaxation of `dotStar g`. -/
theorem dotStar_iff {f g : List Char → Bool}
    (hfg : ∀ cs, f cs = true ↔ ∃ a b, cs = a ++ b ∧ g a = true) :
    ∀ cs, dotStar f cs = true ↔ ∃ a b, cs = a ++ b ∧ dotStar g a = true := by
  intro cs
  induction cs with
  | nil =>
    show f [] = true ↔ _
    rw [hfg]
    constructor
    · rintro ⟨a, b, hab, hg⟩
      obtain ⟨rfl, rfl⟩ : a = [] ∧ b = [] := by
        constructor <;> cases a <;> simp_all
      exact ⟨[], [], rfl, dotStar_of_self hg⟩
    · rintro ⟨a, b, hab, hg⟩
      obtain ⟨rfl, rfl⟩ : a = [] ∧ b = [] := by
        constructor <;> cases a <;> simp_all
      exact ⟨[], [], rfl, hg⟩
  | cons c cs' ih =>
    show (f (c :: cs') || (c != '\n' && dotStar f cs')) = true ↔ _
    constructor
    · intro h
      rcases Bool.or_eq_true_iff.mp h with h1 | h2
      · obtain ⟨a, b, hab, hg⟩ := (hfg _).mp h1
        exact ⟨a, b, hab, dotStar_of_self hg⟩
      · obtain ⟨hnl, hds⟩ := Bool.and_eq_true_iff.mp h2
        obtain ⟨a, b, hab, hg⟩ := ih.mp hds
        refine ⟨c :: a, b, by simp [hab], ?_⟩
        show (g (c :: a) || (c != '\n' && dotStar g a)) = true
        rw [hnl, hg]
        simp
    · rintro ⟨a, b, hab, hg⟩
      cases a with
      | nil =>
        have hfc : f (c :: cs') = true := by
          rw [hfg]
          exact ⟨[], c :: cs', rfl, by simpa [dotStar] using hg⟩
        rw [hfc]
        simp
      | cons c' a' =>
        have hsplit : c' = c ∧ cs' = a' ++ b := by
          have hab2 := hab
          simp only [List.cons_append, List.cons_eq_cons] at hab2
          exact ⟨hab2.1.symm, hab2.2⟩
        obtain ⟨hc', hcs'⟩ := hsplit
        rw [hc'] at hg
        rcases Bool.or_eq_true_iff.mp (show (g (c :: a') || (c != '\n' && dotStar g a')) = true from hg)
          with h1 | h2
        · have hfc : f (c :: cs') = true := by
            rw [hfg]
            exact ⟨c :: a', b, by simp [hcs'], h1⟩
          rw [hfc]
          simp
        · obtain ⟨hnl, hds⟩ := Bool.and_eq_true_iff.mp h2
          have hds' : dotStar f cs' = true := ih.mpr ⟨a', b, hcs', hds⟩
          rw [hnl, hds']
          simp

/-- The code's start-anchored matcher accepts exactly the names some prefix
of which fully matches the compiled pattern. -/
theorem rePartsMatch_iff_prefix (parts : List (List Char)) :
    ∀ cs, rePartsMatch parts cs = true ↔
      ∃ a b, cs = a ++ b ∧ rePartsFull parts a = true := by
  induction parts with
  | nil =>
    intro cs
    constructor
    · intro _
      exact ⟨[], cs, rfl, rfl⟩
    · intro _
      rfl
  | cons p ps ih =>
    intro cs
    cases hsp : stripPre p cs with
    | none =>
      rw [rePartsMatch_cons_none hsp]
      constructor
      · intro h
        exact absurd h Bool.false_ne_true
      · rintro ⟨a, b, hab, hfull⟩
        cases hspa : stripPre p a with
        | none =>
          rw [rePartsFull_cons_none hspa] at hfull
          exact absurd hfull Bool.false_ne_true
        | some r1 =>
          have ha : a = p ++ r1 := stripPre_eq_some_iff.mp hspa
          have hcon : stripPre p cs = some (r1 ++ b) := by
            rw [stripPre_eq_some_iff, hab, ha, List.append_assoc]
          rw [hsp] at hcon
          exact absurd hcon (by simp)
    | some r =>
      have hcs : cs = p ++ r := stripPre_eq_some_iff.mp hsp
      cases ps with
      | nil =>
        rw [rePartsMatch_cons_some hsp]
        constructor
        · intro _
          refine ⟨p, r, hcs, ?_⟩
          rw [rePartsFull_cons_some (stripPre_eq_some_iff.mpr (by simp : p = p ++ []))]
          rfl
        · intro _
          rfl
      | cons p2 ps' =>
        rw [rePartsMatch_cons_some hsp]
        show dotStar (rePartsMatch (p2 :: ps')) r = true
            ↔ ∃ a b, cs = a ++ b ∧ rePartsFull (p :: p2 :: ps') a = true
        rw [dotStar_iff ih r]
        constructor
        · rintro ⟨a', b', hr, hds⟩
          refine ⟨p ++ a', b', by rw [hcs, hr, List.append_assoc], ?_⟩
          rw [rePartsFull_cons_some (stripPre_eq_some_iff.mpr rfl)]
          exact hds
        · rintro ⟨a, b, hab, hfull⟩
          cases hspa : stripPre p a with
          | none =>
            rw [rePartsFull_cons_none hspa] at hfull
            exact absurd hfull Bool.false_ne_true
          | some r1 =>
            rw [rePartsFull_cons_some hspa] at hfull
            have ha : a = p ++ r1 := stripPre_eq_some_iff.mp hspa
            have hr : r = r1 ++ b := by
              have h1 : p ++ r = p ++ (r1 ++ b) := by
                rw [← hcs, hab, ha, List.append_assoc]
              exact List.append_cancel_left h1
            exact ⟨r1, b, hr, hfull⟩

/-- **C1, counterexample.** The code compiles the pattern with `re.match`,
which anchors only at the start of the name: `"CHATGPT*.PF"` (the segment
as normalized from `"CHATGPT*.pf"`) accepts `"CHATGPT123.pfx"` even though
a full-string match fails, so the matcher is not a full-string matcher. -/
theorem embedded_wildcard_cex :
    (wildcardFilter "CHATGPT*.PF" [FSNode.file "CHATGPT123.pfx" none]).map FSNode.name
      = ["CHATGPT123.pfx"]
    ∧ globSegFullMatch "CHATGPT*.PF" "CHATGPT123.pfx" = false := by
  constructor
  · rfl
  · decide

/-- **C1** (amended). For every embedded-wildcard segment and child list,
the matcher returns exactly those children some *prefix* of whose
case-folded name fully matches the compiled case-insensitive pattern
(`re.match` anchors at the start only, not at the end); in particular
`CHATGPT*.PF` matches `CHATGPT123.pf` and also `CHATGPT123.pfx`, but not
`MYCHATGPT1.pf`. -/
theorem embedded_wildcard_prefix_match :
    ∀ (part : String) (children : List FSNode) (c : FSNode),
      (c ∈ wildcardFilter part children ↔
        c ∈ children ∧ ∃ a b, c.name.data.map Char.toLower = a ++ b
          ∧ rePartsFull (compileParts part) a = true)
      ∧ globSegMatch "CHATGPT*.PF" "CHATGPT123.pf" = true
      ∧ globSegMatch "CHATGPT*.PF" "CHATGPT123.pfx" = true
      ∧ globSegMatch "CHATGPT*.PF" "MYCHATGPT1.pf" = false := by
  intro part children c
  refine ⟨?_, by decide, by decide, by decide⟩
  have hchar := rePartsMatch_iff_prefix (compileParts part) (c.name.data.map Char.toLower)
  constructor
  · intro hmem
    have h2 := List.mem_filter.mp hmem
    exact ⟨h2.1, hchar.mp h2.2⟩
  · rintro ⟨hc, hex⟩
    exact List.mem_filter.mpr ⟨hc, hchar.mpr hex⟩

/-! ### Exact-segment matching (claim C6) -/

/-- **C6.** The exact (wildcard-free) segment branch returns at most one
child even among case-variant duplicates: any returned entry is a child
whose name matches the segment case-insensitively; when a case-sensitive
match exists the returned entry bears exactly the segment name; and when
none exists the result is the first case-insensitive match in enumeration
order (`find?`), stopping at the first hit. -/
theorem exact_segment_at_most_one :
    ∀ (children : List FSNode) (part : String),
      (exactSegmentMatch children part).length ≤ 1
      ∧ (∀ e, exactSegmentMatch children part = [e] →
          e ∈ children ∧ lowerStr e.name = lowerStr part)
      ∧ ((∃ x ∈ children, x.name = part) →
          ∃ e, exactSegmentMatch children part = [e] ∧ e.name = part)
      ∧ ((∀ x ∈ children, x.name ≠ part) →
          exactSegmentMatch children part
            = (children.find? (fun x => lowerStr x.name == lowerStr part)).toList) := by
  intro children part
  unfold exactSegmentMatch getSubFileEntryByName
  cases hf : children.find? (fun c => c.name == part) with
  | some e =>
    have hmem := List.mem_of_find?_eq_some hf
    have hname : e.name = part := by simpa using List.find?_some hf
    refine ⟨by simp, ?_, ?_, ?_⟩
    · intro x hx
      have hex : x = e := by simpa using hx.symm
      subst hex
      exact ⟨hmem, by rw [hname]⟩
    · intro _
      exact ⟨e, rfl, hname⟩
    · intro hnone
      exact absurd hname (hnone e hmem)
  | none =>
    have hnof := List.find?_eq_none.mp hf
    cases hg : children.find? (fun c => lowerStr c.name == lowerStr part) with
    | some e =>
      have hmem := List.mem_of_find?_eq_some hg
      have hlow : lowerStr e.name = lowerStr part := by simpa using List.find?_some hg
      refine ⟨by simp, ?_, ?_, ?_⟩
      · intro x hx
        have hex : x = e := by simpa using hx.symm
        subst hex
        exact ⟨hmem, hlow⟩
      · rintro ⟨x, hxmem, hxname⟩
        exact absurd (by simpa using hxname) (hnof x hxmem)
      · intro _
        simp
    | none =>
      refine ⟨by simp, ?_, ?_, ?_⟩
      · intro x hx
        exact absurd hx (by simp)
      · rintro ⟨x, hxmem, hxname⟩
        exact absurd (by simpa using hxname) (hnof x hxmem)
      · intro _
        simp

/-- Witness for C6 on the case-variant duplicates
`[Cookies, COOKIES]` against segment `"COOKIES"`. -/
theorem exact_segment_at_most_one_witness :
    (exactSegmentMatch [FSNode.file "Cookies" none, FSNode.file "COOKIES" none]
      "COOKIES").length ≤ 1
    ∧ ∃ e, exactSegmentMatch [FSNode.file "Cookies" none, FSNode.file "COOKIES" none]
        "COOKIES" = [e] ∧ e.name = "COOKIES" :=
  ⟨(exact_segment_at_most_one [FSNode.file "Cookies" none, FSNode.file "COOKIES" none]
      "COOKIES").1,
   (exact_segment_at_most_one [FSNode.file "Cookies" none, FSNode.file "COOKIES" none]
      "COOKIES").2.2.1 ⟨FSNode.file "COOKIES" none, by simp, rfl⟩⟩

/-! ### Engine step equations and ledger invariants (claims C3, C9, C10) -/

theorem goodEntry_origPath (cp : List String) : GoodEntry (origPathOf cp) := by
  left
  show ("/" ++ String.intercalate "/" cp).data.head? = some '/'
  rw [String.data_append]
  rfl

theorem goodEntry_failEntry (msg : String) : GoodEntry (failEntry msg) := by
  right
  show "[EXTRACTION_FAILED]".data.isPrefixOf ("[EXTRACTION_FAILED] " ++ msg).data = true
  rw [String.data_append]
  rw [List.isPrefixOf_iff_prefix]
  have h : "[EXTRACTION_FAILED] ".data = "[EXTRACTION_FAILED]".data ++ [' '] := rfl
  rw [h, List.append_assoc]
  exact List.prefix_append _ _

theorem sizeOf_fsList_pos (l : List FSNode) : 1 ≤ sizeOf l := by
  cases l <;> simp <;> omega

theorem sizeOf_fsMem_bound {e : FSNode} {l : List FSNode} (h : e ∈ l) :
    2 + sizeOf e ≤ sizeOf l := by
  induction l with
  | nil => cases h
  | cons a l ih =>
    rcases List.mem_cons.mp h with rfl | h2
    · have := sizeOf_fsList_pos l
      simp
      omega
    · have := ih h2
      simp
      omega

theorem sizeOf_fsFilter_le (p : FSNode → Bool) (l : List FSNode) :
    sizeOf (l.filter p) ≤ sizeOf l := by
  induction l with
  | nil => simp
  | cons a l ih =>
    by_cases hp : p a <;> simp [List.filter_cons, hp] <;> omega

theorem sizeOf_exactSegmentMatch_le (l : List FSNode) (part : String) :
    sizeOf (exactSegmentMatch l part) ≤ sizeOf l := by
  unfold exactSegmentMatch getSubFileEntryByName
  rcases hf : l.find? (fun c => c.name == part) with _ | e
  · rcases hg : l.find? (fun c => lowerStr c.name == lowerStr part) with _ | e
    · simp only [hf, hg]
      simpa using sizeOf_fsList_pos l
    · have := sizeOf_fsMem_bound (List.mem_of_find?_eq_some hg)
      simp only [hf, hg]
      simp
      omega
  · have := sizeOf_fsMem_bound (List.mem_of_find?_eq_some hf)
    simp only [hf]
    simp
    omega

theorem extractItem_file_ok (od cat fname : String) (cp : List String)
    (info : ArtifactInfo) (st : ExtractState) :
    extractItem od cat (FSNode.file fname none) cp info st
      = ExtractState.mk (recordEntry st.ledger (origPathOf cp)) (st.counter + 1)
          (st.actions ++ [CopyAction.copyFile (origPathOf cp)
            (cat :: relativePathParts (extractRootNameOf info) cp)]) := by
  simp [extractItem, FSNode.isDirectory]

theorem extractItem_file_err (od cat fname e : String) (cp : List String)
    (info : ArtifactInfo) (st : ExtractState) :
    extractItem od cat (FSNode.file fname (some e)) cp info st
      = ExtractState.mk
          (recordEntry (recordEntry st.ledger (origPathOf cp))
            (failEntry ("Failed to write file '" ++ origPathOf cp ++ "' to '"
              ++ (od ++ "/" ++ String.intercalate "/"
                  (cat :: relativePathParts (extractRootNameOf info) cp)) ++ "': " ++ e)))
          (st.counter + 1) st.actions := by
  simp [extractItem, FSNode.isDirectory]

theorem extractItem_dir_allow_err (od cat dname e : String) (children : List FSNode)
    (cp : List String) (info : ArtifactInfo) (st : ExtractState)
    (hside : info.extract_files.isSome = true) :
    extractItem od cat (FSNode.dir dname (some e) children) cp info st
      = ExtractState.mk
          (recordEntry (recordEntry st.ledger (origPathOf cp))
            (failEntry ("Failed to list items in directory '" ++ origPathOf cp ++ "': " ++ e)))
          st.counter st.actions := by
  simp [extractItem, FSNode.isDirectory, hside]

theorem extractItem_dir_allow_ok (od cat dname : String) (children : List FSNode)
    (cp : List String) (info : ArtifactInfo) (st : ExtractState)
    (hside : info.extract_files.isSome = true) :
    extractItem od cat (FSNode.dir dname none children) cp info st
      = extractAllowed od cat children ((info.extract_files.getD []).map upperStr) cp
          (ExtractState.mk (recordEntry st.ledger (origPathOf cp)) st.counter st.actions) := by
  simp [extractItem, FSNode.isDirectory, hside]

theorem extractItem_dir_anchor_err (od cat dname e : String) (children : List FSNode)
    (cp : List String) (info : ArtifactInfo) (st : ExtractState)
    (hside : info.extract_files.isSome = false) :
    extractItem od cat (FSNode.dir dname (some e) children) cp info st
      = ExtractState.mk
          (recordEntry (recordEntry st.ledger (origPathOf cp))
            (failEntry ("Failed to process subdirectory in '" ++ origPathOf cp ++ "': " ++ e)))
          (st.counter + 1)
          (st.actions ++ [CopyAction.makeDir
            (cat :: relativePathParts (extractRootNameOf info) cp)]) := by
  simp [extractItem, FSNode.isDirectory, hside]

theorem extractItem_dir_anchor_ok (od cat dname : String) (children : List FSNode)
    (cp : List String) (info : ArtifactInfo) (st : ExtractState)
    (hside : info.extract_files.isSome = false) :
    extractItem od cat (FSNode.dir dname none children) cp info st
      = extractWalkChildren od cat children cp info
          (ExtractState.mk (recordEntry st.ledger (origPathOf cp)) (st.counter + 1)
            (st.actions ++ [CopyAction.makeDir
              (cat :: relativePathParts (extractRootNameOf info) cp)])) := by
  simp [extractItem, FSNode.isDirectory, hside]

theorem extractAllowed_nil (od cat : String) (targets : List String) (cp : List String)
    (st : ExtractState) : extractAllowed od cat [] targets cp st = st := by
  simp [extractAllowed]

theorem extractAllowed_cons (od cat : String) (c : FSNode) (rest : List FSNode)
    (targets : List String) (cp : List String) (st : ExtractState) :
    extractAllowed od cat (c :: rest) targets cp st
      = extractAllowed od cat rest targets cp
          (if targets.contains (upperStr c.name)
           then extractItem od cat c (cp ++ [c.name]) { extract_from := some c.name } st
           else st) := by
  rw [extractAllowed]

theorem extractWalkChildren_nil (od cat : String) (cp : List String) (info : ArtifactInfo)
    (st : ExtractState) : extractWalkChildren od cat [] cp info st = st := by
  simp [extractWalkChildren]

theorem extractWalkChildren_cons (od cat : String) (c : FSNode) (rest : List FSNode)
    (cp : List String) (info : ArtifactInfo) (st : ExtractState) :
    extractWalkChildren od cat (c :: rest) cp info st
      = extractWalkChildren od cat rest cp info
          (if c.name = "." ∨ c.name = ".." then st
           else extractItem od cat c (cp ++ [c.name]) info st) := by
  rw [extractWalkChildren]

theorem recursiveSearch_nilParts (od cat : String) (node : FSNode) (cp : List String)
    (info : ArtifactInfo) (st : ExtractState) :
    recursiveSearch od cat node [] cp info st = extractItem od cat node cp info st := by
  rw [recursiveSearch]

theorem recursiveSearch_file (od cat fname : String) (readErr : Option String)
    (part : String) (ps cp : List String) (info : ArtifactInfo) (st : ExtractState) :
    recursiveSearch od cat (FSNode.file fname readErr) (part :: ps) cp info st = st := by
  rw [recursiveSearch]

theorem recursiveSearch_dir_err (od cat dname e : String) (children : List FSNode)
    (part : String) (ps cp : List String) (info : ArtifactInfo) (st : ExtractState) :
    recursiveSearch od cat (FSNode.dir dname (some e) children) (part :: ps) cp info st
      = ExtractState.mk (recordEntry st.ledger (failEntry ("Could not read directory '"
          ++ String.intercalate "/" cp ++ "': " ++ e))) st.counter st.actions := by
  rw [recursiveSearch]

theorem recursiveSearch_dir_ok (od cat dname : String) (children : List FSNode)
    (part : String) (ps cp : List String) (info : ArtifactInfo) (st : ExtractState) :
    recursiveSearch od cat (FSNode.dir dname none children) (part :: ps) cp info st
      = searchFound od cat
          (if part = "*" then children.filter (fun c => !(c.name == "." || c.name == ".."))
           else if '*' ∈ part.data then wildcardFilter part children
           else exactSegmentMatch children part) ps cp info st := by
  rw [recursiveSearch]

theorem searchFound_nil (od cat : String) (remaining cp : List String) (info : ArtifactInfo)
    (st : ExtractState) : searchFound od cat [] remaining cp info st = st := by
  rw [searchFound]

theorem searchFound_cons (od cat : String) (c : FSNode) (rest : List FSNode)
    (remaining cp : List String) (info : ArtifactInfo) (st : ExtractState) :
    searchFound od cat (c :: rest) remaining cp info st
      = searchFound od cat rest remaining cp info
          (recursiveSearch od cat c remaining (cp ++ [c.name]) info st) := by
  rw [searchFound]

/-- Every engine function touches the ledger only through `recordEntry`
with a well-formed entry, so any predicate preserved by such recording is
an invariant of the whole engine (proved simultaneously for the five
mutually recursive functions by strong induction on node size). -/
theorem engine_ledger_invariant (P : List String → Prop)
    (hP : ∀ l s, P l → GoodEntry s → P (recordEntry l s)) :
    ∀ n : Nat,
      (∀ node : FSNode, sizeOf node ≤ n → ∀ od cat cp info st, P st.ledger →
        P ((extractItem od cat node cp info st).ledger))
      ∧ (∀ nodes : List FSNode, sizeOf nodes ≤ n → ∀ od cat targets cp st, P st.ledger →
        P ((extractAllowed od cat nodes targets cp st).ledger))
      ∧ (∀ nodes : List FSNode, sizeOf nodes ≤ n → ∀ od cat cp info st, P st.ledger →
        P ((extractWalkChildren od cat nodes cp info st).ledger))
      ∧ (∀ node : FSNode, sizeOf node ≤ n → ∀ od cat pathParts cp info st, P st.ledger →
        P ((recursiveSearch od cat node pathParts cp info st).ledger))
      ∧ (∀ nodes : List FSNode, sizeOf nodes ≤ n → ∀ od cat remaining cp info st, P st.ledger →
        P ((searchFound od cat nodes remaining cp info st).ledger)) := by
  intro n
  induction n with
  | zero =>
    refine ⟨?_, ?_, ?_, ?_, ?_⟩
    · intro node hsz
      exact absurd hsz (by cases node <;> simp)
    · intro nodes hsz
      exact absurd hsz (by cases nodes <;> simp)
    · intro nodes hsz
      exact absurd hsz (by cases nodes <;> simp)
    · intro node hsz
      exact absurd hsz (by cases node <;> simp)
    · intro nodes hsz
      exact absurd hsz (by cases nodes <;> simp)
  | succ n ihn =>
    obtain ⟨ih1, ih2, ih3, ih4, ih5⟩ := ihn
    have h1 : ∀ node : FSNode, sizeOf node ≤ n + 1 → ∀ od cat cp info st, P st.ledger →
        P ((extractItem od cat node cp info st).ledger) := by
      intro node hsz od cat cp info st hst
      have hst1 : P (recordEntry st.ledger (origPathOf cp)) :=
        hP _ _ hst (goodEntry_origPath cp)
      cases node with
      | file fname readErr =>
        cases readErr with
        | none =>
          rw [extractItem_file_ok]
          exact hst1
        | some e =>
          rw [extractItem_file_err]
          exact hP _ _ hst1 (goodEntry_failEntry _)
      | dir dname childErr children =>
        have hch : sizeOf children ≤ n := by
          have hlt : sizeOf children < sizeOf (FSNode.dir dname childErr children) := by
            simp
            try omega
          omega
        cases hside : info.extract_files.isSome with
        | true =>
          cases childErr with
          | some e =>
            rw [extractItem_dir_allow_err _ _ _ _ _ _ _ _ hside]
            exact hP _ _ hst1 (goodEntry_failEntry _)
          | none =>
            rw [extractItem_dir_allow_ok _ _ _ _ _ _ _ hside]
            exact ih2 children hch _ _ _ _ _ hst1
        | false =>
          cases childErr with
          | some e =>
            rw [extractItem_dir_anchor_err _ _ _ _ _ _ _ _ hside]
            exact hP _ _ hst1 (goodEntry_failEntry _)
          | none =>
            rw [extractItem_dir_anchor_ok _ _ _ _ _ _ _ hside]
            exact ih3 children hch _ _ _ _ _ hst1
    have h2 : ∀ nodes : List FSNode, sizeOf nodes ≤ n + 1 → ∀ od cat targets cp st,
        P st.ledger → P ((extractAllowed od cat nodes targets cp st).ledger) := by
      intro nodes hsz od cat targets cp st hst
      cases nodes with
      | nil =>
        rw [extractAllowed_nil]
        exact hst
      | cons c rest =>
        have hc : sizeOf c ≤ n := by
          have := sizeOf_fsList_pos rest
          simp at hsz
          omega
        have hrest : sizeOf rest ≤ n := by
          simp at hsz
          omega
        rw [extractAllowed_cons]
        refine ih2 rest hrest _ _ _ _ _ ?_
        split
        · exact ih1 c hc _ _ _ _ _ hst
        · exact hst
    have h3 : ∀ nodes : List FSNode, sizeOf nodes ≤ n + 1 → ∀ od cat cp info st,
        P st.ledger → P ((extractWalkChildren od cat nodes cp info st).ledger) := by
      intro nodes hsz od cat cp info st hst
      cases nodes with
      | nil =>
        rw [extractWalkChildren_nil]
        exact hst
      | cons c rest =>
        have hc : sizeOf c ≤ n := by
          have := sizeOf_fsList_pos rest
          simp at hsz
          omega
        have hrest : sizeOf rest ≤ n := by
          simp at hsz
          omega
        rw [extractWalkChildren_cons]
        refine ih3 rest hrest _ _ _ _ _ ?_
        split
        · exact hst
        · exact ih1 c hc _ _ _ _ _ hst
    have h4 : ∀ node : FSNode, sizeOf node ≤ n + 1 → ∀ od cat pathParts cp info st,
        P st.ledger → P ((recursiveSearch od cat node pathParts cp info st).ledger) := by
      intro node hsz od cat pathParts cp info st hst
      cases pathParts with
      | nil =>
        rw [recursiveSearch_nilParts]
        exact h1 node hsz _ _ _ _ _ hst
      | cons part ps =>
        cases node with
        | file fname readErr =>
          rw [recursiveSearch_file]
          exact hst
        | dir dname childErr children =>
          cases childErr with
          | some e =>
            rw [recursiveSearch_dir_err]
            exact hP _ _ hst (goodEntry_failEntry _)
          | none =>
            rw [recursiveSearch_dir_ok]
            have hdir : sizeOf children < sizeOf (FSNode.dir dname (none : Option String)
                children) := by
              simp
              try omega
            have hfound : sizeOf (if part = "*"
                then children.filter (fun c => !(c.name == "." || c.name == ".."))
                else if '*' ∈ part.data then wildcardFilter part children
                else exactSegmentMatch children part) ≤ n := by
              split
              · have := sizeOf_fsFilter_le
                  (fun c => !(c.name == "." || c.name == "..")) children
                omega
              split
              · have := sizeOf_fsFilter_le (fun c => globSegMatch part c.name) children
                simp only [wildcardFilter]
                omega
              · have := sizeOf_exactSegmentMatch_le children part
                omega
            exact ih5 _ hfound _ _ _ _ _ _ hst
    have h5 : ∀ nodes : List FSNode, sizeOf nodes ≤ n + 1 → ∀ od cat remaining cp info st,
        P st.ledger → P ((searchFound od cat nodes remaining cp info st).ledger) := by
      intro nodes hsz od cat remaining cp info st hst
      cases nodes with
      | nil =>
        rw [searchFound_nil]
        exact hst
      | cons c rest =>
        have hc : sizeOf c ≤ n := by
          have := sizeOf_fsList_pos rest
          simp at hsz
          omega
        have hrest : sizeOf rest ≤ n := by
          simp at hsz
          omega
        rw [searchFound_cons]
        exact ih5 rest hrest _ _ _ _ _ _ (ih4 c hc _ _ _ _ _ _ hst)
    exact ⟨h1, h2, h3, h4, h5⟩

/-- Instance of the engine invariant for a full walk. -/
theorem recursiveSearch_ledger_P (P : List String → Prop)
    (hP : ∀ l s, P l → GoodEntry s → P (recordEntry l s))
    (od cat : String) (node : FSNode) (pathParts cp : List String) (info : ArtifactInfo)
    (st : ExtractState) (h : P st.ledger) :
    P ((recursiveSearch od cat node pathParts cp info st).ledger) :=
  (engine_ledger_invariant P hP (sizeOf node)).2.2.2.1 node le_rfl od cat pathParts cp info st h

/-- Instance of the engine invariant for a whole rule list. -/
theorem runRules_ledger_P (P : List String → Prop)
    (hP : ∀ l s, P l → GoodEntry s → P (recordEntry l s))
    (od cat : String) (root : FSNode) :
    ∀ (rs : List ArtifactRule) (st : ExtractState), P st.ledger →
      P ((runRules od cat root rs st).ledger) := by
  intro rs
  induction rs with
  | nil =>
    intro st h
    exact h
  | cons r rest ih =>
    intro st h
    exact ih _ (recursiveSearch_ledger_P P hP _ _ _ _ _ _ _ h)

/-- **C3.** A provider error while enumerating a directory's children
during the walk appends exactly one failure entry keyed by the current
path-so-far (joined with `/`) and changes nothing else in the state; the
walker and the whole rule loop only ever append to the ledger, so entries
from sibling branches already discovered survive and later rules execute on
the grown ledger; and on a concrete tree a failing first child does not
prevent extraction of its sibling (the run completes with both the failure
entry and the sibling's success entry). -/
theorem walker_failure_contained :
    (∀ od cat dname e children part ps cp info st,
      recursiveSearch od cat (FSNode.dir dname (some e) children) (part :: ps) cp info st
        = ExtractState.mk (recordEntry st.ledger (failEntry ("Could not read directory '"
            ++ String.intercalate "/" cp ++ "': " ++ e))) st.counter st.actions)
    ∧ (∀ od cat node pathParts cp info st,
        st.ledger <+: (recursiveSearch od cat node pathParts cp info st).ledger)
    ∧ (∀ od cat root rs st, st.ledger <+: (runRules od cat root rs st).ledger)
    ∧ (runRule "OUT" "CAT"
        (FSNode.dir "" none [FSNode.dir "BAD" (some "boom") [],
          FSNode.dir "GOOD" none [FSNode.file "Y" none]])
        { path := "*/Y" } initState).ledger
      = [failEntry "Could not read directory 'BAD': boom", "/GOOD/Y"] := by
  have hP : ∀ (base l : List String) (s : String), base <+: l → GoodEntry s →
      base <+: recordEntry l s := by
    intro base l s hpre _
    unfold recordEntry
    split
    · exact hpre
    · exact hpre.trans (List.prefix_append l [s])
  refine ⟨?_, ?_, ?_, ?_⟩
  · intro od cat dname e children part ps cp info st
    exact recursiveSearch_dir_err od cat dname e children part ps cp info st
  · intro od cat node pathParts cp info st
    exact recursiveSearch_ledger_P (fun l => st.ledger <+: l) (hP st.ledger) od cat node
      pathParts cp info st (List.prefix_refl _)
  · intro od cat root rs st
    exact runRules_ledger_P (fun l => st.ledger <+: l) (hP st.ledger) od cat root rs st
      (List.prefix_refl _)
  · simp [runRule, show templateParts "*/Y" = ["*", "Y"] from rfl, recursiveSearch,
      searchFound, extractItem, exactSegmentMatch,
      getSubFileEntryByName, initState, recordEntry, failEntry, origPathOf,
      relativePathParts, extractRootNameOf, FSNode.name, FSNode.isDirectory, lastComponent,
      splitOnChar, containsSeq, revIndexOf, upperStr, wildcardFilter, globSegMatch]
    try decide

/-- **C9, counterexample.** `extract_item` records the original path as a
success entry *before* attempting the copy (line 188); when the copy then
fails, a failure entry naming the same original path `/A` is appended too,
so a success entry and a failure entry for one original path coexist in
the category. -/
theorem ledger_same_path_cex :
    (runRule "OUT" "CAT" (FSNode.dir "" none [FSNode.file "A" (some "boom")])
      { path := "A" } initState).ledger
      = ["/A", failEntry ("Failed to write file '" ++ "/A" ++ "' to 'OUT/CAT/A': boom")]
    ∧ isFailEntry "/A" = false
    ∧ isFailEntry (failEntry ("Failed to write file '" ++ "/A" ++ "' to 'OUT/CAT/A': boom"))
      = true := by
  refine ⟨?_, by decide, by decide⟩
  simp [runRule, show templateParts "A" = ["A"] from rfl, recursiveSearch, searchFound,
    extractItem, exactSegmentMatch,
    getSubFileEntryByName, initState, recordEntry, failEntry, origPathOf, relativePathParts,
    extractRootNameOf, FSNode.name, FSNode.isDirectory, lastComponent, splitOnChar,
    containsSeq, revIndexOf, upperStr]
  try decide

/-- **C9** (amended). Within one category the ledger never keeps two equal
literal entries — it stays duplicate-free (`Nodup`) at every point of the
run — but a success entry and a failure entry for the same original path
are different strings and CAN coexist, because the path is recorded before
the copy attempt. -/
theorem ledger_nodup :
    ∀ od cat root rs, ((runRules od cat root rs initState).ledger).Nodup := by
  intro od cat root rs
  refine runRules_ledger_P (fun l => l.Nodup) ?_ od cat root rs initState (by simp [initState])
  intro l s hl _
  unfold recordEntry
  split
  · exact hl
  · next hnot =>
    rw [List.nodup_append]
    refine ⟨hl, List.nodup_singleton s, ?_⟩
    intro a ha hs
    rw [List.mem_singleton] at hs
    exact hnot (hs ▸ ha)

theorem isFailEntry_head {p : String} (h : isFailEntry p = true) :
    p.data.head? = some '[' := by
  unfold isFailEntry at h
  rw [List.isPrefixOf_iff_prefix] at h
  obtain ⟨t, ht⟩ := h
  rw [← ht]
  rfl

theorem headSlash_not_fail {p : String} (h : p.data.head? = some '/') :
    isFailEntry p = false := by
  unfold isFailEntry
  cases hd : p.data with
  | nil =>
    rw [hd] at h
    cases h
  | cons c t =>
    rw [hd] at h
    have hc : c = '/' := by simpa using h
    subst hc
    rfl

theorem filter_length_partition (p : String → Bool) (l : List String) :
    (l.filter (fun a => !(p a))).length + (l.filter p).length = l.length := by
  induction l with
  | nil => rfl
  | cons a l ih =>
    by_cases hp : p a <;> simp [List.filter_cons, hp] <;> omega

/-- **C10.** Every entry a run ever appends to a category is either a
recorded original path (starting with `'/'`) or a failure diagnostic
(starting with `"[EXTRACTION_FAILED]"`); consequently the success and
failure tallies of `final_summary`, computed by testing that prefix,
partition the category: succeeded plus failed equals the total entry
count, and the succeeded count is exactly the number of entries starting
with `'/'`. -/
theorem ledger_entries_partition :
    ∀ od cat root rs,
      (∀ p ∈ (runRules od cat root rs initState).ledger, GoodEntry p)
      ∧ succeededCount ((runRules od cat root rs initState).ledger)
          + failedCount ((runRules od cat root rs initState).ledger)
          = ((runRules od cat root rs initState).ledger).length
      ∧ succeededCount ((runRules od cat root rs initState).ledger)
          = (((runRules od cat root rs initState).ledger).filter
              (fun p => p.data.head? == some '/')).length := by
  intro od cat root rs
  have hall : ∀ p ∈ (runRules od cat root rs initState).ledger, GoodEntry p := by
    refine runRules_ledger_P (fun l => ∀ p ∈ l, GoodEntry p) ?_ od cat root rs initState
      (by simp [initState])
    intro l s hl hs p hp
    unfold recordEntry at hp
    split at hp
    · exact hl p hp
    · rcases List.mem_append.mp hp with h | h
      · exact hl p h
      · rw [List.mem_singleton] at h
        exact h ▸ hs
  refine ⟨hall, filter_length_partition _ _, ?_⟩
  unfold succeededCount
  apply congrArg List.length
  apply List.filter_congr
  intro p hp
  rcases hall p hp with hg | hg
  · rw [headSlash_not_fail hg]
    simp [hg]
  · rw [hg]
    have hne : p.data.head? ≠ some '/' := by
      rw [isFailEntry_head hg]
      decide
    simp [hne]

/-- Witness for C10 on a one-file run whose ledger is `["/B"]`. -/
theorem ledger_entries_partition_witness :
    GoodEntry "/B"
    ∧ succeededCount ((runRules "OUT" "CAT" (FSNode.dir "" none [FSNode.file "B" none])
          [{ path := "B" }] initState).ledger)
        + failedCount ((runRules "OUT" "CAT" (FSNode.dir "" none [FSNode.file "B" none])
          [{ path := "B" }] initState).ledger)
        = ((runRules "OUT" "CAT" (FSNode.dir "" none [FSNode.file "B" none])
          [{ path := "B" }] initState).ledger).length := by
  constructor
  · refine (ledger_entries_partition "OUT" "CAT" (FSNode.dir "" none [FSNode.file "B" none])
      [{ path := "B" }]).1 "/B" ?_
    simp [runRules, runRule, show templateParts "B" = ["B"] from rfl, recursiveSearch,
      searchFound, extractItem, exactSegmentMatch,
      getSubFileEntryByName, initState, recordEntry, origPathOf, relativePathParts,
      extractRootNameOf, FSNode.name, FSNode.isDirectory, lastComponent, splitOnChar,
      containsSeq, revIndexOf, upperStr]
    try decide
  · exact (ledger_entries_partition "OUT" "CAT" (FSNode.dir "" none [FSNode.file "B" none])
      [{ path := "B" }]).2.1

/-! ### Allow-list extraction (claim C5) -/

/-- Copy actions are appended unconditionally (no dedup), so the actions an
extraction performs do not depend on the incoming state: every extract
function appends a state-independent action suffix. -/
theorem engine_actions_delta :
    ∀ n : Nat,
      (∀ node : FSNode, sizeOf node ≤ n → ∀ od cat cp info st,
        (extractItem od cat node cp info st).actions
          = st.actions ++ (extractItem od cat node cp info initState).actions)
      ∧ (∀ nodes : List FSNode, sizeOf nodes ≤ n → ∀ od cat targets cp st,
        (extractAllowed od cat nodes targets cp st).actions
          = st.actions ++ (extractAllowed od cat nodes targets cp initState).actions)
      ∧ (∀ nodes : List FSNode, sizeOf nodes ≤ n → ∀ od cat cp info st,
        (extractWalkChildren od cat nodes cp info st).actions
          = st.actions ++ (extractWalkChildren od cat nodes cp info initState).actions) := by
  intro n
  induction n with
  | zero =>
    refine ⟨?_, ?_, ?_⟩
    · intro node hsz
      exact absurd hsz (by cases node <;> simp)
    · intro nodes hsz
      exact absurd hsz (by cases nodes <;> simp)
    · intro nodes hsz
      exact absurd hsz (by cases nodes <;> simp)
  | succ n ihn =>
    obtain ⟨ih1, ih2, ih3⟩ := ihn
    have h1 : ∀ node : FSNode, sizeOf node ≤ n + 1 → ∀ od cat cp info st,
        (extractItem od cat node cp info st).actions
          = st.actions ++ (extractItem od cat node cp info initState).actions := by
      intro node hsz od cat cp info st
      cases node with
      | file fname readErr =>
        cases readErr with
        | none => simp [extractItem_file_ok, initState]
        | some e => simp [extractItem_file_err, initState]
      | dir dname childErr children =>
        have hch : sizeOf children ≤ n := by
          have hlt : sizeOf children < sizeOf (FSNode.dir dname childErr children) := by
            simp
            try omega
          omega
        cases hside : info.extract_files.isSome with
        | true =>
          cases childErr with
          | some e => simp [extractItem_dir_allow_err _ _ _ _ _ _ _ _ hside, initState]
          | none =>
            rw [extractItem_dir_allow_ok _ _ _ _ _ _ _ hside,
              extractItem_dir_allow_ok _ _ _ _ _ _ _ hside]
            rw [ih2 children hch od cat _ cp
              (ExtractState.mk (recordEntry st.ledger (origPathOf cp)) st.counter st.actions)]
            rw [ih2 children hch od cat _ cp
              (ExtractState.mk (recordEntry initState.ledger (origPathOf cp))
                initState.counter initState.actions)]
            simp [initState]
        | false =>
          cases childErr with
          | some e => simp [extractItem_dir_anchor_err _ _ _ _ _ _ _ _ hside, initState]
          | none =>
            rw [extractItem_dir_anchor_ok _ _ _ _ _ _ _ hside,
              extractItem_dir_anchor_ok _ _ _ _ _ _ _ hside]
            rw [ih3 children hch od cat cp info
              (ExtractState.mk (recordEntry st.ledger (origPathOf cp)) (st.counter + 1)
                (st.actions ++ [CopyAction.makeDir
                  (cat :: relativePathParts (extractRootNameOf info) cp)]))]
            rw [ih3 children hch od cat cp info
              (ExtractState.mk (recordEntry initState.ledger (origPathOf cp))
                (initState.counter + 1)
                (initState.actions ++ [CopyAction.makeDir
                  (cat :: relativePathParts (extractRootNameOf info) cp)]))]
            simp [initState]
    have h2 : ∀ nodes : List FSNode, sizeOf nodes ≤ n + 1 → ∀ od cat targets cp st,
        (extractAllowed od cat nodes targets cp st).actions
          = st.actions ++ (extractAllowed od cat nodes targets cp initState).actions := by
      intro nodes hsz od cat targets cp st
      cases nodes with
      | nil => simp [extractAllowed_nil, initState]
      | cons c rest =>
        have hc : sizeOf c ≤ n := by
          have := sizeOf_fsList_pos rest
          simp at hsz
          omega
        have hrest : sizeOf rest ≤ n := by
          simp at hsz
          omega
        rw [extractAllowed_cons, extractAllowed_cons]
        by_cases hsel : targets.contains (upperStr c.name) = true
        · rw [if_pos hsel, if_pos hsel]
          rw [ih2 rest hrest od cat targets cp
            (extractItem od cat c (cp ++ [c.name]) { extract_from := some c.name } st)]
          rw [ih2 rest hrest od cat targets cp
            (extractItem od cat c (cp ++ [c.name]) { extract_from := some c.name } initState)]
          try rw [ih1 c hc]
          try simp [initState]
        · rw [if_neg hsel, if_neg hsel]
          rw [ih2 rest hrest od cat targets cp st]
          try rw [ih2 rest hrest od cat targets cp initState]
          try simp [initState]
    have h3 : ∀ nodes : List FSNode, sizeOf nodes ≤ n + 1 → ∀ od cat cp info st,
        (extractWalkChildren od cat nodes cp info st).actions
          = st.actions ++ (extractWalkChildren od cat nodes cp info initState).actions := by
      intro nodes hsz od cat cp info st
      cases nodes with
      | nil => simp [extractWalkChildren_nil, initState]
      | cons c rest =>
        have hc : sizeOf c ≤ n := by
          have := sizeOf_fsList_pos rest
          simp at hsz
          omega
        have hrest : sizeOf rest ≤ n := by
          simp at hsz
          omega
        rw [extractWalkChildren_cons, extractWalkChildren_cons]
        by_cases hdot : c.name = "." ∨ c.name = ".."
        · rw [if_pos hdot, if_pos hdot]
          rw [ih3 rest hrest od cat cp info st]
          try rw [ih3 rest hrest od cat cp info initState]
          try simp [initState]
        · rw [if_neg hdot, if_neg hdot]
          rw [ih3 rest hrest od cat cp info
            (extractItem od cat c (cp ++ [c.name]) info st)]
          rw [ih3 rest hrest od cat cp info
            (extractItem od cat c (cp ++ [c.name]) info initState)]
          try rw [ih1 c hc]
          try simp [initState]
    exact ⟨h1, h2, h3⟩

theorem extractItem_actions_delta (od cat : String) (node : FSNode) (cp : List String)
    (info : ArtifactInfo) (st : ExtractState) :
    (extractItem od cat node cp info st).actions = st.actions ++ extractDelta od cat node cp info :=
  (engine_actions_delta (sizeOf node)).1 node le_rfl od cat cp info st

theorem extractAllowed_actions_delta (od cat : String) (nodes : List FSNode)
    (targets cp : List String) (st : ExtractState) :
    (extractAllowed od cat nodes targets cp st).actions
      = st.actions ++ (extractAllowed od cat nodes targets cp initState).actions :=
  (engine_actions_delta (sizeOf nodes)).2.1 nodes le_rfl od cat targets cp st

/-- The allow-list loop's actions are exactly the concatenation of the
selected children's actions, each re-anchored on its own name. -/
theorem extractAllowed_actions_flatMap (od cat : String) :
    ∀ (nodes : List FSNode) (targets cp : List String),
      (extractAllowed od cat nodes targets cp initState).actions
        = (nodes.filter (fun c => targets.contains (upperStr c.name))).flatMap
            (fun c => extractDelta od cat c (cp ++ [c.name]) { extract_from := some c.name }) := by
  intro nodes
  induction nodes with
  | nil =>
    intro targets cp
    simp [extractAllowed_nil, initState]
  | cons c rest ih =>
    intro targets cp
    rw [extractAllowed_cons]
    rw [extractAllowed_actions_delta]
    by_cases hsel : targets.contains (upperStr c.name) = true
    · rw [if_pos hsel]
      rw [extractItem_actions_delta]
      simp only [List.filter_cons, hsel, List.flatMap_cons]
      rw [ih targets cp]
      simp [initState]
    · rw [if_neg hsel]
      have hb : targets.contains (upperStr c.name) = false := by
        cases hx : targets.contains (upperStr c.name)
        · rfl
        · exact absurd hx hsel
      simp only [List.filter_cons, hb]
      rw [ih targets cp]
      simp [initState]

theorem relativePathParts_self_last (cp : List String) (x : String) :
    relativePathParts (upperStr x) (cp ++ [x]) = [x] := by
  by_cases hx : upperStr x = ""
  · unfold relativePathParts
    rw [if_pos hx]
    rw [List.getLastD_concat]
  · unfold relativePathParts
    rw [if_neg hx]
    have hrev : ((cp ++ [x]).map upperStr).reverse
        = upperStr x :: (cp.map upperStr).reverse := by
      rw [List.map_append, List.reverse_append]
      simp
    rw [hrev]
    rw [show revIndexOf (upperStr x) (upperStr x :: (cp.map upperStr).reverse) = some 0
      from by simp [revIndexOf]]
    show List.drop ((cp ++ [x]).length - 1 - 0) (cp ++ [x]) = [x]
    have hlen : (cp ++ [x]).length - 1 - 0 = cp.length := by
      simp
    rw [hlen]
    exact List.drop_left cp [x]

/-- **C5.** For an allow-list rule whose terminal match is a readable
directory, the copy actions are exactly the concatenation, over the
immediate children whose upper-cased name equals an allow-listed name, of
that child's own extraction with `extract_from` set to its own name: the
matched directory itself contributes no action (never copied wholesale) and
non-listed children contribute none; such a selected file child is copied
flat to `category/<child name>`. -/
theorem allowlist_extraction :
    ∀ (od cat dname : String) (children : List FSNode) (cp : List String)
      (fs : List String) (info : ArtifactInfo),
      info.extract_files = some fs →
      (extractDelta od cat (FSNode.dir dname none children) cp info
        = (children.filter (fun c => (fs.map upperStr).contains (upperStr c.name))).flatMap
            (fun c => extractDelta od cat c (cp ++ [c.name]) { extract_from := some c.name }))
      ∧ (∀ fname : String, extractRootNameOf { extract_from := some fname } = upperStr fname →
          extractDelta od cat (FSNode.file fname none) (cp ++ [fname])
              { extract_from := some fname }
            = [CopyAction.copyFile (origPathOf (cp ++ [fname])) (cat :: [fname])]) := by
  intro od cat dname children cp fs info hfs
  constructor
  · unfold extractDelta
    rw [extractItem_dir_allow_ok _ _ _ _ _ _ _ (by rw [hfs]; rfl)]
    rw [extractAllowed_actions_delta]
    rw [extractAllowed_actions_flatMap]
    simp [hfs, initState]
    try rfl
  · intro fname hroot
    unfold extractDelta
    rw [extractItem_file_ok]
    rw [hroot, relativePathParts_self_last]
    simp [initState]

/-- Witness for C5 on the spec's scenario: directory `N` with children
`Cookies` and `Other` under the allow-list `["Cookies"]`. -/
theorem allowlist_extraction_witness :
    (extractDelta "OUT" "CAT"
        (FSNode.dir "N" none [FSNode.file "Cookies" none, FSNode.file "Other" none]) ["N"]
        { extract_files := some ["Cookies"] }
      = ([FSNode.file "Cookies" none, FSNode.file "Other" none].filter
          (fun c => (["Cookies"].map upperStr).contains (upperStr c.name))).flatMap
            (fun c => extractDelta "OUT" "CAT" c (["N"] ++ [c.name])
              { extract_from := some c.name }))
    ∧ extractDelta "OUT" "CAT" (FSNode.file "Cookies" none) (["N"] ++ ["Cookies"])
        { extract_from := some "Cookies" }
      = [CopyAction.copyFile (origPathOf (["N"] ++ ["Cookies"])) ("CAT" :: ["Cookies"])] :=
  ⟨(allowlist_extraction "OUT" "CAT" "N"
      [FSNode.file "Cookies" none, FSNode.file "Other" none] ["N"] ["Cookies"]
      { extract_files := some ["Cookies"] } rfl).1,
   (allowlist_extraction "OUT" "CAT" "N"
      [FSNode.file "Cookies" none, FSNode.file "Other" none] ["N"] ["Cookies"]
      { extract_files := some ["Cookies"] } rfl).2 "Cookies" (by decide)⟩

end ExtractLLM
